import Mathlib

/-!
Shallow embedding of the deep-merge engine of `k8s-openapi` (`src/deep_merge.rs`).

The source is a Rust module with:
  * primitive `DeepMerge` impls that overwrite the target (`*self = other`);
  * `DeepMerge for Option<T>` (presence-aware merge);
  * `DeepMerge for serde_json::Value` (RFC 7396 JSON merge patch);
  * a strategy library `strategies::{list, map}` with `atomic`, `map`
    (list-as-map keyed reconciliation), `set`, `granular` functions, each
    working over a "possibly optional collection" carrier (`Vec<T>` or
    `Option<Vec<T>>`, `BTreeMap<K, V>` or `Option<BTreeMap<K, V>>`).

`serde_json::Map` and `BTreeMap` are embedded as association lists
`List (String × β)`; map operations (`remove`, `entry(..).or_insert(..)`,
vacant/occupied entries) are embedded as the corresponding association-list
operations acting on every entry holding the key (a real map holds each key
at most once).
-/

namespace DeepMergeModel

/-- Overwriting merge used by the primitive `DeepMerge` impls
(`bool`, `i32`, `i64`, `f64`, `String`, `ByteString`, `DateTime`):
`*self = other`. -/
def overwriteMerge {α : Type} (a b : α) : α := b

/-- Embeds `DeepMerge for Option<T>`: `if let Some(other) = other { if let Some(s) =
self { s.merge_from(other) } else { *self = Some(other) } }`; when `other` is
`None` the body does nothing. -/
def optionMergeFrom {α : Type} (merge : α → α → α) (self other : Option α) : Option α :=
  match other with
  | some o =>
    match self with
    | some s => some (merge s o)
    | none => some o
  | none => self

/-! ## Association-list operations embedding string-keyed maps -/

/-- Value stored at key `k`, i.e. `map.get(&k)`. -/
def lookupKey {β : Type} (k : String) : List (String × β) → Option β
  | [] => none
  | (k', v) :: rest => if k' = k then some v else lookupKey k rest

/-- Embeds `map.contains_key(&k)`. -/
def containsKey {β : Type} (k : String) : List (String × β) → Bool
  | [] => false
  | (k', _) :: rest => k' = k || containsKey k rest

/-- Embeds `map.remove(&k)`: afterwards the key is absent. -/
def removeKey {β : Type} (k : String) : List (String × β) → List (String × β)
  | [] => []
  | (k', v) :: rest => if k' = k then removeKey k rest else (k', v) :: removeKey k rest

/-- Replace the value stored at key `k` (no effect on other keys, no
insertion). -/
def setKey {β : Type} (k : String) (nv : β) : List (String × β) → List (String × β)
  | [] => []
  | (k', v) :: rest => if k' = k then (k', nv) :: setKey k nv rest else (k', v) :: setKey k nv rest

/-- Store `nv` at key `k`: in place when the key is present, appended
otherwise. This is `map.entry(k)` followed by writing the entry's value. -/
def upsertKey {β : Type} (k : String) (nv : β) (l : List (String × β)) : List (String × β) :=
  if containsKey k l then setKey k nv l else l ++ [(k, nv)]

/-- The keys of the association list are pairwise distinct — true of every
list that embeds an actual `serde_json::Map` / `BTreeMap`. -/
def nodupKeys {β : Type} : List (String × β) → Bool
  | [] => true
  | (k, _) :: rest => !containsKey k rest && nodupKeys rest

/-! ## `serde_json::Value` and its RFC 7396 merge -/

/-- Embeds `serde_json::Value`. Numbers carry an integer payload: no claim
depends on numeric structure, only on equality of values. -/
inductive Json : Type where
  | null : Json
  | bool (b : Bool) : Json
  | num (n : Int) : Json
  | str (s : String) : Json
  | arr (items : List Json) : Json
  | obj (entries : List (String × Json)) : Json

/-- Embeds `Value::is_null()`. -/
def Json.isNull : Json → Bool
  | .null => true
  | _ => false

/-- Embeds `Value::is_object()`. -/
def Json.isObj : Json → Bool
  | .obj _ => true
  | _ => false

mutual

/-- Embeds `impl DeepMerge for serde_json::Value`: when both sides are objects the
source entries are folded into the target (`Json.mergeObj`); in every other
case `*self = other`. -/
def Json.mergeFrom : Json → Json → Json
  | .obj this, .obj other => .obj (Json.mergeObj this other)
  | _, o => o
termination_by a b => (sizeOf b, 0)
decreasing_by
  all_goals simp_wf
  all_goals apply Prod.Lex.left
  all_goals try simp
  all_goals omega

/-- The object branch of `merge_from`: `for (k, v) in other { if v.is_null()
{ this.remove(&k); } else { this.entry(k).or_insert(Value::Null)
.merge_from(v); } }`. The entry at `k` thus becomes the old value (or the
null placeholder when absent) merged with `v`. -/
def Json.mergeObj : List (String × Json) → List (String × Json) → List (String × Json)
  | this, [] => this
  | this, (k, v) :: rest =>
    if v.isNull then Json.mergeObj (removeKey k this) rest
    else Json.mergeObj (upsertKey k (Json.mergeFrom ((lookupKey k this).getD Json.null) v) this) rest
termination_by t l => (sizeOf l, 1)
decreasing_by
  all_goals simp_wf
  all_goals apply Prod.Lex.left
  all_goals try simp
  all_goals omega

end

mutual

/-- Sufficient condition for JSON self-merge stability: every object has
pairwise-distinct keys and no null-valued entry (a null entry is deleted by
self-merge, and the merge never looks inside arrays). -/
def Json.idemOk : Json → Bool
  | .obj kvs => nodupKeys kvs && Json.idemOkEntries kvs
  | _ => true
termination_by v => (sizeOf v, 0)
decreasing_by
  all_goals simp_wf
  all_goals apply Prod.Lex.left
  all_goals try simp
  all_goals omega

/-- Holds `Json.idemOk` for every value of an object's entry list. -/
def Json.idemOkEntries : List (String × Json) → Bool
  | [] => true
  | (_, v) :: rest => !v.isNull && Json.idemOk v && Json.idemOkEntries rest
termination_by l => (sizeOf l, 1)
decreasing_by
  all_goals simp_wf
  all_goals apply Prod.Lex.left
  all_goals try simp
  all_goals omega

end

/-! ## The collection strategy library (`strategies::list`, `strategies::map`)

Each strategy exists both for the bare carrier (`Vec<T>` / `BTreeMap<K, V>`,
where `as_mut_opt` always yields the collection and `set` replaces it
unconditionally) and for the optional carrier (`Option<Vec<T>>` /
`Option<BTreeMap<K, V>>`, where `as_mut_opt` is `as_mut` and `set` replaces
only when the new value `is_some()`).
-/

/-- Embeds `AsOptVec::set` / `AsOptMap::set` of the optional carrier:
`if new.is_some() { *self = new; }`. -/
def optSet {γ : Type} (old new : Option γ) : Option γ :=
  if new.isSome then new else old

/-- Embeds `strategies::list::atomic` on the bare `Vec` carrier: `old.set(new)`,
i.e. `*old = new`. -/
def vecAtomic {α : Type} (old new : List α) : List α := new

/-- Embeds `strategies::list::atomic` on the `Option<Vec>` carrier. -/
def optVecAtomic {α : Type} (old new : Option (List α)) : Option (List α) :=
  optSet old new

/-- Embeds `key_comparators.iter().all(|f| f(&new_item, old_item))`: the AND of all
supplied key comparators applied to the new item and a candidate old item. -/
def matchesAll {α : Type} (cmps : List (α → α → Bool)) (n o : α) : Bool :=
  cmps.all fun f => f n o

/-- One iteration of the `strategies::list::map` loop:
`old.iter_mut().find(|old_item| ...)` locates the first old item every key
comparator matches against `new_item`; it is replaced by
`merge_item(old_item, new_item)`; with no match `old.push(new_item)`. -/
def mergeOrAppend {α : Type} (cmps : List (α → α → Bool)) (mi : α → α → α) :
    List α → α → List α
  | [], n => [n]
  | o :: rest, n =>
    if matchesAll cmps n o then mi o n :: rest
    else o :: mergeOrAppend cmps mi rest n

/-- Embeds `strategies::list::map` on the bare `Vec` carrier (always the present
branch): `for new_item in new { ... }` folds `mergeOrAppend` over the new
items in encounter order. -/
def vecListMap {α : Type} (cmps : List (α → α → Bool)) (mi : α → α → α)
    (old new : List α) : List α :=
  new.foldl (mergeOrAppend cmps mi) old

/-- Embeds `strategies::list::map` on the `Option<Vec>` carrier: with `old` present
the loop runs on its content (`new.into_opt().into_iter().flatten()` yields
`new`'s items or nothing); with `old` absent, `old.set(new)`. -/
def optVecListMap {α : Type} (cmps : List (α → α → Bool)) (mi : α → α → α)
    (old new : Option (List α)) : Option (List α) :=
  match old with
  | some o => some (vecListMap cmps mi o (new.getD []))
  | none => optSet none new

/-- One iteration of the `strategies::list::set` loop:
`if !old.contains(&item) { old.push(item); }`. -/
def appendIfAbsent {α : Type} [DecidableEq α] (old : List α) (item : α) : List α :=
  if item ∈ old then old else old ++ [item]

/-- Embeds `strategies::list::set` on the bare `Vec` carrier. -/
def vecListSet {α : Type} [DecidableEq α] (old new : List α) : List α :=
  new.foldl appendIfAbsent old

/-- Embeds `strategies::list::set` on the `Option<Vec>` carrier. -/
def optVecListSet {α : Type} [DecidableEq α] (old new : Option (List α)) :
    Option (List α) :=
  match old with
  | some o => some (vecListSet o (new.getD []))
  | none => optSet none new

/-- One iteration of the `strategies::map::granular` loop: a vacant entry is
inserted verbatim (`entry.insert(new_v)`), an occupied entry is merged
(`merge_value(entry.into_mut(), new_v)`). -/
def granularStep {β : Type} (mv : β → β → β) (old : List (String × β))
    (k : String) (v : β) : List (String × β) :=
  match lookupKey k old with
  | some ov => setKey k (mv ov v) old
  | none => old ++ [(k, v)]

/-- Embeds `strategies::map::granular` on the bare `BTreeMap` carrier:
`for (k, new_v) in new { match old.entry(k) { ... } }`. -/
def mapGranular {β : Type} (mv : β → β → β)
    (old new : List (String × β)) : List (String × β) :=
  new.foldl (fun acc p => granularStep mv acc p.1 p.2) old

/-- Embeds `strategies::map::granular` on the `Option<BTreeMap>` carrier. -/
def optMapGranular {β : Type} (mv : β → β → β)
    (old new : Option (List (String × β))) : Option (List (String × β)) :=
  match old with
  | some o => some (mapGranular mv o (new.getD []))
  | none => optSet none new

/-- Embeds `strategies::map::atomic` on the bare `BTreeMap` carrier. -/
def mapAtomic {β : Type} (old new : List (String × β)) : List (String × β) := new

/-- Embeds `strategies::map::atomic` on the `Option<BTreeMap>` carrier. -/
def optMapAtomic {β : Type} (old new : Option (List (String × β))) :
    Option (List (String × β)) :=
  optSet old new

/-! ## Specification-side companions used to characterize the strategies -/

/-- The items of `new` that the list/set strategy keeps: taken in encounter
order, an item is kept when it is absent from the list built so far (the
original `old` followed by the kept items before it). -/
def keptNew {α : Type} [DecidableEq α] (old : List α) : List α → List α
  | [] => []
  | n :: rest => if n ∈ old then keptNew old rest else n :: keptNew (old ++ [n]) rest

/-- The empty default JSON value (`serde_json::Value::default()` is
`Value::Null`). -/
def jsonEmptyDefault : Json := Json.null

/-- Modelled from the spec: the alternative formulation of the absent-key
case of the object merge — "inserting `v` merged against an empty default"
at the absent key `k`. -/
def specInsertAbsent (tkvs : List (String × Json)) (k : String) (v : Json) :
    List (String × Json) :=
  tkvs ++ [(k, Json.mergeFrom jsonEmptyDefault v)]

/-! ## Lemmas about the association-list map operations -/

theorem containsKey_eq_isSome_lookupKey {β : Type} (k : String) :
    ∀ l : List (String × β), containsKey k l = (lookupKey k l).isSome := by
  intro l
  induction l with
  | nil => rfl
  | cons p rest ih =>
    obtain ⟨k', v⟩ := p
    by_cases h : k' = k <;> simp [containsKey, lookupKey, h, ih]

theorem containsKey_of_mem {β : Type} {k : String} {v : β} {l : List (String × β)}
    (h : (k, v) ∈ l) : containsKey k l = true := by
  induction l with
  | nil => simp at h
  | cons p rest ih =>
    rcases List.mem_cons.mp h with h' | h'
    · simp [containsKey, h'.symm]
    · simp [containsKey, ih h']

theorem lookupKey_of_mem_nodup {β : Type} {k : String} {v : β} {l : List (String × β)}
    (hnd : nodupKeys l = true) (h : (k, v) ∈ l) : lookupKey k l = some v := by
  induction l with
  | nil => simp at h
  | cons p rest ih =>
    obtain ⟨k', v'⟩ := p
    simp only [nodupKeys, Bool.and_eq_true, Bool.not_eq_true'] at hnd
    rcases List.mem_cons.mp h with h' | h'
    · obtain ⟨rfl, rfl⟩ := Prod.mk.injEq .. ▸ h'
      simp [lookupKey]
    · have hne : k' ≠ k := by
        intro hkk
        subst hkk
        exact absurd (containsKey_of_mem h') (by simp [hnd.1])
      simp [lookupKey, hne, ih hnd.2 h']

theorem lookupKey_removeKey_self {β : Type} (k : String) (l : List (String × β)) :
    lookupKey k (removeKey k l) = none := by
  induction l with
  | nil => rfl
  | cons p rest ih =>
    obtain ⟨k', v⟩ := p
    by_cases h : k' = k <;> simp [removeKey, lookupKey, h, ih]

theorem lookupKey_removeKey_ne {β : Type} {k k' : String} (hne : k' ≠ k)
    (l : List (String × β)) : lookupKey k (removeKey k' l) = lookupKey k l := by
  induction l with
  | nil => rfl
  | cons p rest ih =>
    obtain ⟨k'', v⟩ := p
    by_cases h1 : k'' = k'
    · subst h1
      simp [removeKey, lookupKey, hne, ih]
    · by_cases h2 : k'' = k <;> simp [removeKey, lookupKey, h1, h2, Ne.symm hne, ih]

theorem lookupKey_setKey_self {β : Type} (k : String) (nv : β) (l : List (String × β)) :
    lookupKey k (setKey k nv l) = (lookupKey k l).map fun _ => nv := by
  induction l with
  | nil => rfl
  | cons p rest ih =>
    obtain ⟨k', v⟩ := p
    by_cases h : k' = k <;> simp [setKey, lookupKey, h, ih]

theorem lookupKey_setKey_ne {β : Type} {k k' : String} (hne : k' ≠ k) (nv : β)
    (l : List (String × β)) : lookupKey k (setKey k' nv l) = lookupKey k l := by
  induction l with
  | nil => rfl
  | cons p rest ih =>
    obtain ⟨k'', v⟩ := p
    by_cases h1 : k'' = k'
    · subst h1
      simp [setKey, lookupKey, hne, ih]
    · by_cases h2 : k'' = k <;> simp [setKey, lookupKey, h1, h2, Ne.symm hne, ih]

theorem lookupKey_append_single {β : Type} (k k' : String) (v : β)
    (l : List (String × β)) :
    lookupKey k (l ++ [(k', v)]) =
      match lookupKey k l with
      | some x => some x
      | none => if k' = k then some v else none := by
  induction l with
  | nil => rfl
  | cons p rest ih =>
    obtain ⟨k'', v'⟩ := p
    by_cases h : k'' = k <;> simp [lookupKey, h, ih]

theorem setKey_of_not_contains {β : Type} {k : String} {l : List (String × β)}
    (h : containsKey k l = false) (nv : β) : setKey k nv l = l := by
  induction l with
  | nil => rfl
  | cons p rest ih =>
    obtain ⟨k', v⟩ := p
    simp only [containsKey, Bool.or_eq_false_iff, decide_eq_false_iff_not] at h
    simp [setKey, h.1, ih h.2]

theorem setKey_self_of_mem_nodup {β : Type} {k : String} {v : β} {l : List (String × β)}
    (hnd : nodupKeys l = true) (h : (k, v) ∈ l) : setKey k v l = l := by
  induction l with
  | nil => rfl
  | cons p rest ih =>
    obtain ⟨k', v'⟩ := p
    simp only [nodupKeys, Bool.and_eq_true, Bool.not_eq_true'] at hnd
    rcases List.mem_cons.mp h with h' | h'
    · obtain ⟨rfl, rfl⟩ := Prod.mk.injEq .. ▸ h'
      simp [setKey, setKey_of_not_contains hnd.1]
    · have hne : k' ≠ k := by
        intro hkk
        subst hkk
        exact absurd (containsKey_of_mem h') (by simp [hnd.1])
      simp [setKey, hne, ih hnd.2 h']

theorem lookupKey_upsertKey_self {β : Type} (k : String) (nv : β)
    (l : List (String × β)) : lookupKey k (upsertKey k nv l) = some nv := by
  unfold upsertKey
  by_cases h : containsKey k l = true
  · rw [if_pos h, lookupKey_setKey_self]
    have := containsKey_eq_isSome_lookupKey k l
    rw [h] at this
    obtain ⟨x, hx⟩ := Option.isSome_iff_exists.mp this.symm
    simp [hx]
  · rw [if_neg h, lookupKey_append_single]
    have hnone : lookupKey k l = none := by
      have := containsKey_eq_isSome_lookupKey k l
      rw [Bool.eq_false_iff.mpr h] at this
      exact Option.not_isSome_iff_eq_none.mp (by simp [this.symm])
    simp [hnone]

theorem lookupKey_upsertKey_ne {β : Type} {k k' : String} (hne : k' ≠ k) (nv : β)
    (l : List (String × β)) : lookupKey k (upsertKey k' nv l) = lookupKey k l := by
  unfold upsertKey
  by_cases h : containsKey k' l = true
  · rw [if_pos h, lookupKey_setKey_ne hne]
  · rw [if_neg h, lookupKey_append_single]
    cases hx : lookupKey k l <;> simp [hx, hne]

theorem foldl_of_fixed {δ ε : Type} {f : δ → ε → δ} {b : δ} :
    ∀ {l : List ε}, (∀ a ∈ l, f b a = b) → l.foldl f b = b
  | [], _ => rfl
  | a :: rest, h => by
    have hb : f b a = b := h a (by simp)
    simpa [hb] using foldl_of_fixed fun x hx => h x (by simp [hx])

theorem lookupKey_eq_none_of_not_contains {β : Type} {k : String}
    {l : List (String × β)} (h : containsKey k l = false) : lookupKey k l = none := by
  have heq := containsKey_eq_isSome_lookupKey k l
  rw [h] at heq
  exact Option.not_isSome_iff_eq_none.mp (by simp [heq.symm])

/-! ## Lemmas about the JSON merge -/

theorem mergeFrom_null_source (t : Json) : Json.mergeFrom t Json.null = Json.null := by
  cases t <;> simp [Json.mergeFrom]

theorem mergeFrom_null_target (s : Json) : Json.mergeFrom Json.null s = s := by
  cases s <;> simp [Json.mergeFrom]

theorem mergeFrom_of_not_both_obj {t s : Json}
    (h : t.isObj = false ∨ s.isObj = false) : Json.mergeFrom t s = s := by
  cases t <;> cases s <;> simp_all [Json.mergeFrom, Json.isObj]

/-- Pointwise characterization of the object branch: what each key holds
after folding the source entries into the target. -/
theorem mergeObj_lookup :
    ∀ (skvs tkvs : List (String × Json)), nodupKeys skvs = true → ∀ k : String,
      lookupKey k (Json.mergeObj tkvs skvs) =
        match lookupKey k skvs with
        | some v =>
          if v.isNull then none
          else some (Json.mergeFrom ((lookupKey k tkvs).getD Json.null) v)
        | none => lookupKey k tkvs := by
  intro skvs
  induction skvs with
  | nil =>
    intro tkvs _ k
    simp [Json.mergeObj, lookupKey]
  | cons p rest ih =>
    obtain ⟨k', v⟩ := p
    intro tkvs hnd k
    simp only [nodupKeys, Bool.and_eq_true, Bool.not_eq_true'] at hnd
    by_cases hv : v.isNull = true
    · rw [show Json.mergeObj tkvs ((k', v) :: rest) =
          Json.mergeObj (removeKey k' tkvs) rest by simp [Json.mergeObj, hv]]
      rw [ih _ hnd.2 k]
      by_cases hk : k' = k
      · subst hk
        have hr : lookupKey k' rest = none := lookupKey_eq_none_of_not_contains hnd.1
        simp [lookupKey, hr, lookupKey_removeKey_self, hv]
      · cases hx : lookupKey k rest <;>
          simp [lookupKey, hk, hx, lookupKey_removeKey_ne hk, hv]
    · rw [show Json.mergeObj tkvs ((k', v) :: rest) =
          Json.mergeObj
            (upsertKey k' (Json.mergeFrom ((lookupKey k' tkvs).getD Json.null) v) tkvs)
            rest by simp [Json.mergeObj, hv]]
      rw [ih _ hnd.2 k]
      by_cases hk : k' = k
      · subst hk
        have hr : lookupKey k' rest = none := lookupKey_eq_none_of_not_contains hnd.1
        simp [lookupKey, hr, lookupKey_upsertKey_self, hv]
      · cases hx : lookupKey k rest <;>
          simp [lookupKey, hk, hx, lookupKey_upsertKey_ne hk, hv]

/-- Folding source entries that are non-null, already present with an equal
value, and self-merge-stable into a duplicate-free target changes nothing. -/
theorem mergeObj_self :
    ∀ (src l : List (String × Json)), nodupKeys l = true →
      (∀ p ∈ src, p.2.isNull = false ∧ p ∈ l ∧ Json.mergeFrom p.2 p.2 = p.2) →
      Json.mergeObj l src = l := by
  intro src
  induction src with
  | nil =>
    intro l _ _
    simp [Json.mergeObj]
  | cons p rest ih =>
    obtain ⟨k, v⟩ := p
    intro l hnd h
    have hv := h (k, v) (by simp)
    rw [show Json.mergeObj l ((k, v) :: rest) =
        Json.mergeObj
          (upsertKey k (Json.mergeFrom ((lookupKey k l).getD Json.null) v) l)
          rest by simp [Json.mergeObj, hv.1]]
    have hl : lookupKey k l = some v := lookupKey_of_mem_nodup hnd hv.2.1
    rw [hl]
    simp only [Option.getD_some]
    rw [hv.2.2]
    have hup : upsertKey k v l = l := by
      unfold upsertKey
      rw [if_pos (containsKey_of_mem hv.2.1), setKey_self_of_mem_nodup hnd hv.2.1]
    rw [hup]
    exact ih l hnd fun q hq => h q (by simp [hq])


theorem idemOkEntries_mem :
    ∀ {l : List (String × Json)}, Json.idemOkEntries l = true →
      ∀ p ∈ l, p.2.isNull = false ∧ Json.idemOk p.2 = true := by
  intro l
  induction l with
  | nil => simp
  | cons q rest ih =>
    obtain ⟨k, v⟩ := q
    intro h p hp
    simp only [Json.idemOkEntries, Bool.and_eq_true, Bool.not_eq_true'] at h
    rcases List.mem_cons.mp hp with h' | h'
    · subst h'
      exact ⟨h.1.1, h.1.2⟩
    · exact ih h.2 p h'

/-- JSON self-merge is the identity on `idemOk` values. -/
theorem json_self_merge : ∀ v : Json, Json.idemOk v = true → Json.mergeFrom v v = v
  | .null, _ => by simp [Json.mergeFrom]
  | .bool b, _ => by simp [Json.mergeFrom]
  | .num n, _ => by simp [Json.mergeFrom]
  | .str s, _ => by simp [Json.mergeFrom]
  | .arr xs, _ => by simp [Json.mergeFrom]
  | .obj kvs, h => by
    rw [show Json.idemOk (.obj kvs) = (nodupKeys kvs && Json.idemOkEntries kvs) from
      by simp [Json.idemOk]] at h
    rw [Bool.and_eq_true] at h
    have hmem := idemOkEntries_mem h.2
    rw [show Json.mergeFrom (.obj kvs) (.obj kvs) = .obj (Json.mergeObj kvs kvs) from
      by simp [Json.mergeFrom]]
    rw [mergeObj_self kvs kvs h.1 fun p hp =>
      ⟨(hmem p hp).1, hp, json_self_merge p.2 (hmem p hp).2⟩]
termination_by v => sizeOf v
decreasing_by
  have hs := List.sizeOf_lt_of_mem hp
  obtain ⟨a, b⟩ := p
  simp only [Prod.mk.sizeOf_spec] at hs
  simp only [Json.obj.sizeOf_spec]
  omega

/-! ## Lemmas about the list strategies -/

theorem mergeOrAppend_first_match {α : Type} (cmps : List (α → α → Bool))
    (mi : α → α → α) :
    ∀ (pre : List α) (o : α) (post : List α) (n : α),
      (∀ x ∈ pre, matchesAll cmps n x = false) → matchesAll cmps n o = true →
      mergeOrAppend cmps mi (pre ++ o :: post) n = pre ++ mi o n :: post := by
  intro pre
  induction pre with
  | nil =>
    intro o post n _ hm
    simp [mergeOrAppend, hm]
  | cons x xs ih =>
    intro o post n hpre hm
    have hx : matchesAll cmps n x = false := hpre x (by simp)
    simp [mergeOrAppend, hx, ih _ _ _ (fun y hy => hpre y (by simp [hy])) hm]

theorem mergeOrAppend_no_match {α : Type} (cmps : List (α → α → Bool))
    (mi : α → α → α) :
    ∀ (old : List α) (n : α), (∀ x ∈ old, matchesAll cmps n x = false) →
      mergeOrAppend cmps mi old n = old ++ [n] := by
  intro old
  induction old with
  | nil =>
    intro n _
    rfl
  | cons x xs ih =>
    intro n h
    have hx : matchesAll cmps n x = false := h x (by simp)
    simp [mergeOrAppend, hx, ih n fun y hy => h y (by simp [hy])]

theorem mergeOrAppend_self_mem {α : Type} (cmps : List (α → α → Bool))
    (mi : α → α → α) :
    ∀ v : List α, List.Pairwise (fun x y => matchesAll cmps y x = false) v →
      (∀ a ∈ v, matchesAll cmps a a = true) → (∀ a ∈ v, mi a a = a) →
      ∀ a ∈ v, mergeOrAppend cmps mi v a = v := by
  intro v
  induction v with
  | nil => simp
  | cons b rest ih =>
    intro hpw hself hmi a ha
    rw [List.pairwise_cons] at hpw
    rcases List.mem_cons.mp ha with h' | h'
    · subst h'
      simp [mergeOrAppend, hself a (by simp), hmi a (by simp)]
    · have hab : matchesAll cmps a b = false := hpw.1 a h'
      simp only [mergeOrAppend, hab, if_neg Bool.false_ne_true, List.cons.injEq, true_and]
      exact ih hpw.2 (fun x hx => hself x (by simp [hx]))
        (fun x hx => hmi x (by simp [hx])) a h'

theorem vecListSet_eq_append_keptNew {α : Type} [DecidableEq α] :
    ∀ (new old : List α), vecListSet old new = old ++ keptNew old new := by
  intro new
  induction new with
  | nil =>
    intro old
    simp [vecListSet, keptNew]
  | cons n rest ih =>
    intro old
    by_cases h : n ∈ old
    · have hstep : appendIfAbsent old n = old := by simp [appendIfAbsent, h]
      have hrec := ih old
      simp only [vecListSet] at hrec
      simp [vecListSet, keptNew, h, hstep, hrec]
    · have : appendIfAbsent old n = old ++ [n] := by simp [appendIfAbsent, h]
      have hrec := ih (old ++ [n])
      simp only [vecListSet] at hrec
      simp [vecListSet, keptNew, h, this, hrec]

theorem granularStep_self_mem {β : Type} (mv : β → β → β)
    {v : List (String × β)} (hnd : nodupKeys v = true) :
    (∀ p ∈ v, mv p.2 p.2 = p.2) → ∀ p ∈ v, granularStep mv v p.1 p.2 = v := by
  intro hmv p hp
  have hl : lookupKey p.1 v = some p.2 := lookupKey_of_mem_nodup hnd (by simpa using hp)
  simp only [granularStep, hl]
  rw [hmv p hp, setKey_self_of_mem_nodup hnd (by simpa using hp)]

theorem lookupKey_granularStep_self {β : Type} (mv : β → β → β)
    (l : List (String × β)) (k : String) (v : β) :
    lookupKey k (granularStep mv l k v) =
      some (match lookupKey k l with | some ov => mv ov v | none => v) := by
  unfold granularStep
  cases hx : lookupKey k l with
  | none => simp [lookupKey_append_single, hx]
  | some ov => simp [lookupKey_setKey_self, hx]

theorem lookupKey_granularStep_ne {β : Type} {k k' : String} (hne : k' ≠ k)
    (mv : β → β → β) (l : List (String × β)) (v : β) :
    lookupKey k (granularStep mv l k' v) = lookupKey k l := by
  unfold granularStep
  cases hx : lookupKey k' l with
  | none =>
    rw [lookupKey_append_single]
    cases hy : lookupKey k l <;> simp [hy, hne]
  | some ov => rw [lookupKey_setKey_ne hne]

/-- Pointwise characterization of the granular map strategy. -/
theorem mapGranular_lookup {β : Type} (mv : β → β → β) :
    ∀ (new old : List (String × β)), nodupKeys new = true → ∀ k : String,
      lookupKey k (mapGranular mv old new) =
        match lookupKey k new with
        | some v => some (match lookupKey k old with | some ov => mv ov v | none => v)
        | none => lookupKey k old := by
  intro new
  induction new with
  | nil =>
    intro old _ k
    simp [mapGranular, lookupKey]
  | cons p rest ih =>
    obtain ⟨k', v⟩ := p
    intro old hnd k
    simp only [nodupKeys, Bool.and_eq_true, Bool.not_eq_true'] at hnd
    rw [show mapGranular mv old ((k', v) :: rest) =
        mapGranular mv (granularStep mv old k' v) rest from rfl]
    rw [ih _ hnd.2 k]
    by_cases hk : k' = k
    · subst hk
      have hr : lookupKey k' rest = none := lookupKey_eq_none_of_not_contains hnd.1
      simp [lookupKey, hr, lookupKey_granularStep_self]
    · cases hx : lookupKey k rest <;>
        simp [lookupKey, hk, hx, lookupKey_granularStep_ne hk]

/-! ## The claims -/

/-- C1: for the list/map strategy on a present old list, each new item in
encounter order is deep-merged into the first old item matched by all key
comparators (even when later items also match), or appended when nothing
matches; old items keep their order and unmatched new items are appended in
encounter order (witnessed by the never-matching comparator, under which the
whole result is `old ++ new`). -/
theorem c1_list_map_reconciliation :
    (∀ (α : Type) (cmps : List (α → α → Bool)) (mi : α → α → α)
        (pre : List α) (o : α) (post : List α) (n : α),
        (∀ x ∈ pre, matchesAll cmps n x = false) → matchesAll cmps n o = true →
        mergeOrAppend cmps mi (pre ++ o :: post) n = pre ++ mi o n :: post)
    ∧ (∀ (α : Type) (cmps : List (α → α → Bool)) (mi : α → α → α)
        (old : List α) (n : α),
        (∀ x ∈ old, matchesAll cmps n x = false) →
        mergeOrAppend cmps mi old n = old ++ [n])
    ∧ (∀ (α : Type) (mi : α → α → α) (old new : List α),
        vecListMap [fun _ _ => false] mi old new = old ++ new) := by
  refine ⟨fun α cmps mi => mergeOrAppend_first_match cmps mi,
    fun α cmps mi => mergeOrAppend_no_match cmps mi, ?_⟩
  intro α mi old new
  induction new generalizing old with
  | nil => simp [vecListMap]
  | cons n ns ih =>
    have hstep : mergeOrAppend [fun _ _ => false] mi old n = old ++ [n] :=
      mergeOrAppend_no_match _ _ old n fun x _ => by simp [matchesAll]
    have hrec := ih (old ++ [n])
    simp only [vecListMap] at hrec
    simp [vecListMap, hstep, hrec]

/-- Witness for C1 at concrete inputs: item `(2, 30)` replaces the keyed
match `(2, 20)`; item `(3, 30)` is appended. -/
theorem c1_list_map_witness :
    mergeOrAppend [fun a b : Nat × Nat => a.1 == b.1] (fun _ n => n)
        [(1, 10), (2, 20)] (2, 30) = [(1, 10), (2, 30)]
    ∧ mergeOrAppend [fun a b : Nat × Nat => a.1 == b.1] (fun _ n => n)
        [(1, 10)] (3, 30) = [(1, 10), (3, 30)] := by
  constructor
  · have h := c1_list_map_reconciliation.1 (Nat × Nat) [fun a b => a.1 == b.1]
      (fun _ n => n) [(1, 10)] (2, 20) [] (2, 30) (by decide) (by decide)
    simpa using h
  · have h := c1_list_map_reconciliation.2.1 (Nat × Nat) [fun a b => a.1 == b.1]
      (fun _ n => n) [(1, 10)] (3, 30) (by decide)
    simpa using h

/-- C2: the untyped JSON merge replaces the target wholesale whenever the
two sides are not both objects (in particular a top-level null source yields
null); when both are objects, each source key with a null value is removed,
and every other source value is merged into the target entry (a null
placeholder standing in for an absent entry), other keys being untouched. -/
theorem c2_json_merge_rfc7396 :
    (∀ t : Json, Json.mergeFrom t Json.null = Json.null)
    ∧ (∀ t s : Json, t.isObj = false ∨ s.isObj = false → Json.mergeFrom t s = s)
    ∧ (∀ tkvs skvs : List (String × Json), nodupKeys skvs = true →
        Json.mergeFrom (Json.obj tkvs) (Json.obj skvs) =
          Json.obj (Json.mergeObj tkvs skvs)
        ∧ ∀ k : String,
            lookupKey k (Json.mergeObj tkvs skvs) =
              match lookupKey k skvs with
              | some v =>
                if v.isNull then none
                else some (Json.mergeFrom ((lookupKey k tkvs).getD Json.null) v)
              | none => lookupKey k tkvs) :=
  ⟨mergeFrom_null_source, fun _ _ h => mergeFrom_of_not_both_obj h,
    fun tkvs skvs hnd =>
      ⟨by simp [Json.mergeFrom], fun k => mergeObj_lookup skvs tkvs hnd k⟩⟩

/-- Witness for C2 at the RFC 7396 examples: null deletes key `a`, key `b`
survives, and a top-level null source replaces an object target. -/
theorem c2_json_merge_witness :
    lookupKey "a"
        (Json.mergeObj [("a", Json.num 1), ("b", Json.num 2)] [("a", Json.null)]) =
      none
    ∧ lookupKey "b"
        (Json.mergeObj [("a", Json.num 1), ("b", Json.num 2)] [("a", Json.null)]) =
      some (Json.num 2)
    ∧ Json.mergeFrom (Json.obj [("a", Json.num 1)]) Json.null = Json.null := by
  refine ⟨?_, ?_, c2_json_merge_rfc7396.1 (Json.obj [("a", Json.num 1)])⟩
  · have h := (c2_json_merge_rfc7396.2.2 [("a", Json.num 1), ("b", Json.num 2)]
      [("a", Json.null)] (by simp [nodupKeys, containsKey])).2 "a"
    rw [h]
    simp [lookupKey, Json.isNull]
  · have h := (c2_json_merge_rfc7396.2.2 [("a", Json.num 1), ("b", Json.num 2)]
      [("a", Json.null)] (by simp [nodupKeys, containsKey])).2 "b"
    rw [h]
    simp [lookupKey, Json.isNull]

/-- C3: the Option merge satisfies all four absorption equations and a
present target stays present with its inner value merged. -/
theorem c3_option_absorption {α : Type} (m : α → α → α) (x y : α) :
    optionMergeFrom m none none = (none : Option α)
    ∧ optionMergeFrom m none (some x) = some x
    ∧ optionMergeFrom m (some x) none = some x
    ∧ optionMergeFrom m (some x) (some y) = some (m x y) :=
  ⟨rfl, rfl, rfl, rfl⟩

/-- C4 counterexample: self-merge is not idempotent for the untyped JSON
merge — an object with a null-valued entry loses that entry. -/
theorem c4_self_merge_counterexample :
    Json.mergeFrom (Json.obj [("a", Json.null)]) (Json.obj [("a", Json.null)]) ≠
      Json.obj [("a", Json.null)] := by
  have h : Json.mergeFrom (Json.obj [("a", Json.null)]) (Json.obj [("a", Json.null)]) =
      Json.obj [] := by
    simp [Json.mergeFrom, Json.mergeObj, removeKey, Json.isNull]
  rw [h]
  intro hc
  simp at hc

/-- C4 amended: self-merge is idempotent for the primitive rule, list/atomic,
list/set and map/atomic unconditionally; for the optional rule and
map/granular when the inner merge is self-idempotent (and map keys are
distinct); for the untyped JSON merge on values whose objects have distinct
keys and no null-valued entries; and for list/map when every item matches
itself under the comparators, matches no earlier item, and the item merge is
self-idempotent. -/
theorem c4_idempotence_amended :
    (∀ (α : Type) (x : α), overwriteMerge x x = x)
    ∧ (∀ (α : Type) (m : α → α → α) (t : Option α),
        (∀ x : α, m x x = x) → optionMergeFrom m t t = t)
    ∧ (∀ v : Json, Json.idemOk v = true → Json.mergeFrom v v = v)
    ∧ (∀ (α : Type) (v : List α), vecAtomic v v = v)
    ∧ (∀ (α : Type) [inst : DecidableEq α] (v : List α), vecListSet v v = v)
    ∧ (∀ (α : Type) (cmps : List (α → α → Bool)) (mi : α → α → α) (v : List α),
        List.Pairwise (fun x y => matchesAll cmps y x = false) v →
        (∀ a ∈ v, matchesAll cmps a a = true) → (∀ a ∈ v, mi a a = a) →
        vecListMap cmps mi v v = v)
    ∧ (∀ (β : Type) (mv : β → β → β) (v : List (String × β)),
        nodupKeys v = true → (∀ p ∈ v, mv p.2 p.2 = p.2) →
        mapGranular mv v v = v)
    ∧ (∀ (β : Type) (v : List (String × β)), mapAtomic v v = v) := by
  refine ⟨fun α x => rfl, ?_, json_self_merge, fun α v => rfl, ?_, ?_, ?_,
    fun β v => rfl⟩
  · intro α m t h
    cases t with
    | none => rfl
    | some x => simp [optionMergeFrom, h x]
  · intro α _ v
    exact foldl_of_fixed fun a ha => by simp [appendIfAbsent, ha]
  · intro α cmps mi v hpw hself hmi
    exact foldl_of_fixed (mergeOrAppend_self_mem cmps mi v hpw hself hmi)
  · intro β mv v hnd hmv
    exact foldl_of_fixed fun p hp => granularStep_self_mem mv hnd hmv p hp

/-- Witness for C4 amended at concrete inputs from each conditional
category. -/
theorem c4_idempotence_witness :
    optionMergeFrom (fun a b : Int => b) (some 5) (some 5) = some 5
    ∧ Json.mergeFrom (Json.obj [("a", Json.num 1)]) (Json.obj [("a", Json.num 1)]) =
        Json.obj [("a", Json.num 1)]
    ∧ vecListSet [1, 2] [1, 2] = [1, 2]
    ∧ vecListMap [fun a b : Int => a == b] (fun _ b => b) [1, 2] [1, 2] = [1, 2]
    ∧ mapGranular (fun _ b : Int => b) [("a", 1)] [("a", 1)] = [("a", 1)] := by
  refine ⟨c4_idempotence_amended.2.1 Int (fun _ b => b) (some 5) (fun x => rfl),
    c4_idempotence_amended.2.2.1 (Json.obj [("a", Json.num 1)])
      (by simp [Json.idemOk, Json.idemOkEntries, nodupKeys, containsKey, Json.isNull]),
    c4_idempotence_amended.2.2.2.2.1 Nat [1, 2],
    c4_idempotence_amended.2.2.2.2.2.1 Int [fun a b => a == b] (fun _ b => b)
      [1, 2] ?_ (by decide) (fun a _ => rfl),
    c4_idempotence_amended.2.2.2.2.2.2.1 Int (fun _ b => b) [("a", 1)]
      (by simp [nodupKeys, containsKey]) (fun p _ => rfl)⟩
  simp [List.pairwise_cons, matchesAll]

/-- C5: at a source key absent from the target with a non-null value, the
procedure the code uses (insert a null placeholder, then merge the source
value into it) appends exactly the source value merged against the empty
default JSON value, and that merge is the identity. -/
theorem c5_placeholder_refinement (tkvs : List (String × Json)) (k : String)
    (v : Json) (habs : containsKey k tkvs = false) (hnn : v.isNull = false) :
    Json.mergeObj tkvs [(k, v)] = specInsertAbsent tkvs k v
    ∧ Json.mergeFrom jsonEmptyDefault v = v := by
  constructor
  · rw [show Json.mergeObj tkvs [(k, v)] =
        upsertKey k (Json.mergeFrom ((lookupKey k tkvs).getD Json.null) v) tkvs by
          simp [Json.mergeObj, hnn]]
    rw [lookupKey_eq_none_of_not_contains habs]
    simp only [Option.getD_none]
    unfold upsertKey
    rw [if_neg (by simp [habs])]
    simp [specInsertAbsent, jsonEmptyDefault]
  · exact mergeFrom_null_target v

/-- Witness for C5 at a value that itself contains a null-valued entry. -/
theorem c5_placeholder_witness :
    Json.mergeObj [] [("a", Json.obj [("b", Json.null)])] =
      specInsertAbsent [] "a" (Json.obj [("b", Json.null)])
    ∧ Json.mergeFrom jsonEmptyDefault (Json.obj [("b", Json.null)]) =
      Json.obj [("b", Json.null)] :=
  c5_placeholder_refinement [] "a" (Json.obj [("b", Json.null)]) rfl rfl

/-- C6: the list/set strategy on a present old list keeps old verbatim and
appends, in encounter order, exactly the new items absent from the list
built so far; in particular `[1,2,3]` merged with `[2,4]` is `[1,2,3,4]`. -/
theorem c6_list_set_dedup :
    (∀ (α : Type) [inst : DecidableEq α] (old new : List α),
        vecListSet old new = old ++ keptNew old new)
    ∧ vecListSet [1, 2, 3] [2, 4] = [1, 2, 3, 4] := by
  refine ⟨fun α _ old new => vecListSet_eq_append_keptNew new old, by decide⟩

/-- C7: the granular map strategy on a present old map merges values of
shared keys with the supplied function, inserts new keys verbatim, and
leaves unmentioned old keys unchanged; the spec's concrete example holds. -/
theorem c7_map_granular_merge :
    (∀ (β : Type) (mv : β → β → β) (old new : List (String × β)),
        nodupKeys new = true → ∀ k : String,
        lookupKey k (mapGranular mv old new) =
          match lookupKey k new with
          | some v =>
            some (match lookupKey k old with | some ov => mv ov v | none => v)
          | none => lookupKey k old)
    ∧ mapGranular Json.mergeFrom
        [("a", Json.num 1), ("b", Json.obj [("x", Json.num 1)])]
        [("b", Json.obj [("y", Json.num 2)]), ("c", Json.num 3)] =
      [("a", Json.num 1),
       ("b", Json.obj [("x", Json.num 1), ("y", Json.num 2)]),
       ("c", Json.num 3)] := by
  constructor
  · intro β mv old new hnd k
    exact mapGranular_lookup mv new old hnd k
  · simp [mapGranular, granularStep, lookupKey, setKey, Json.mergeFrom,
      Json.mergeObj, upsertKey, containsKey, Json.isNull]

/-- Witness for C7: merging `{"a": 1}` into `{"a": 2}` granularly with the
overwriting value merge leaves `a` bound to the source value. -/
theorem c7_map_granular_witness :
    lookupKey "a" (mapGranular (fun _ b : Int => b) [("a", 2)] [("a", 1)]) =
      some 1 := by
  have h := c7_map_granular_merge.1 Int (fun _ b => b) [("a", 2)] [("a", 1)]
    (by simp [nodupKeys, containsKey]) "a"
  rw [h]
  simp [lookupKey]

/-- C8: list/atomic and map/atomic replace the collection with `new`
whenever `new` is present (always, for the bare carrier), and leave an
optional carrier unchanged when `new` is absent. -/
theorem c8_atomic_replace {α β : Type} :
    (∀ old new : List α, vecAtomic old new = new)
    ∧ (∀ (old : Option (List α)) (n : List α), optVecAtomic old (some n) = some n)
    ∧ (∀ old : Option (List α), optVecAtomic old none = old)
    ∧ (∀ old new : List (String × β), mapAtomic old new = new)
    ∧ (∀ (old : Option (List (String × β))) (n : List (String × β)),
        optMapAtomic old (some n) = some n)
    ∧ (∀ old : Option (List (String × β)), optMapAtomic old none = old) :=
  ⟨fun _ _ => rfl, fun _ _ => rfl, fun _ => rfl, fun _ _ => rfl, fun _ _ => rfl,
    fun _ => rfl⟩

/-- C9: a typed optional that is present before the merge is present after
it, whatever the source is — the Option merge never clears its target. -/
theorem c9_typed_optional_never_cleared {α : Type} (m : α → α → α)
    (t s : Option α) (h : t.isSome = true) :
    (optionMergeFrom m t s).isSome = true := by
  cases s <;> cases t <;> simp_all [optionMergeFrom]

/-- Witness for C9: a `None` source leaves `some 1` present. -/
theorem c9_never_cleared_witness :
    (optionMergeFrom (fun _ b : Int => b) (some 1) none).isSome = true :=
  c9_typed_optional_never_cleared (fun _ b => b) (some 1) none rfl

/-- C10: with an empty key-comparator slice and a non-empty present old
list, every new item matches (and is merged into) the first old element, so
nothing is appended and the length never changes. -/
theorem c10_empty_key_comparators {α : Type} (mi : α → α → α) (o : α)
    (rest new : List α) :
    vecListMap [] mi (o :: rest) new = new.foldl mi o :: rest
    ∧ (vecListMap [] mi (o :: rest) new).length = (o :: rest).length := by
  have main : ∀ (l : List α) (b : α),
      vecListMap [] mi (b :: rest) l = l.foldl mi b :: rest := by
    intro l
    induction l with
    | nil =>
      intro b
      rfl
    | cons n ns ih =>
      intro b
      have hstep : mergeOrAppend [] mi (b :: rest) n = mi b n :: rest := by
        simp [mergeOrAppend, matchesAll]
      simp only [vecListMap, List.foldl_cons, hstep]
      exact ih (mi b n)
  refine ⟨main new o, ?_⟩
  rw [main new o]
  simp

end DeepMergeModel
